import Mathlib

/-!
Verification of the composite-state indexing component (`CompositeStateIndex`)
described by the repository's specification, together with the training-data
generator script `Tutorials/Supervised/generate_data.py`.

The indexing component itself (`nk.hilbert.HilbertIndex` and the Hilbert-space
classes it consumes) is exercised by `Test/Hilbert/test_hilbert.py` but its
implementation is not part of the excerpt, so it is modelled here from the
specification's words.  The data-generator script is present in full and is
embedded directly from its source.
-/

namespace NetketSpec

/-- Modelled from the spec: the implementation of the Hilbert-space local
alphabets is missing from the excerpt.  A local symbol is a finite real value
(represented exactly as a rational) or one of the non-finite values an IEEE
float could carry (NaN, the two infinities), which the spec's invariant
excludes from any accepted alphabet. -/
inductive Sym where
  | finite (q : ℚ) : Sym
  | nan : Sym
  | inf : Sym
  | neginf : Sym
deriving DecidableEq

/-- A symbol is finite when it is not NaN and not an infinity. -/
def Sym.isFinite : Sym → Bool
  | .finite _ => true
  | _ => false

/-- Modelled from the spec: the error kinds of the component
(`OverflowError`, `IndexOutOfRange`, `InvalidState`), plus `InvalidArgument`
for a construction precondition violation. -/
inductive Err where
  | OverflowError
  | IndexOutOfRange
  | InvalidState
  | InvalidArgument
deriving DecidableEq

/-- Modelled from the spec: the fixed platform-chosen ceiling on the number of
enumerable states, "e.g. representable in a 63-bit unsigned count". -/
def max_states : Nat := 2 ^ 63 - 1

/-- Modelled from the spec: the `CompositeStateIndex` component stores the
immutable triple `(size, alphabet, N)` after a successful construction. -/
structure CompositeStateIndex where
  size : Nat
  alphabet : List Sym
  nStates : Nat
deriving DecidableEq

/-- Number of local states (the test's `hi.local_size`). -/
def CompositeStateIndex.local_size (idx : CompositeStateIndex) : Nat :=
  idx.alphabet.length

/-- The ordered local alphabet (the test's `hi.local_states`). -/
def CompositeStateIndex.local_states (idx : CompositeStateIndex) : List Sym :=
  idx.alphabet

/-- Modelled from the spec: construction from `(size, alphabet)`.  Checks the
preconditions (`size > 0`, alphabet non-empty with finite, distinct values),
computes `N = local_size ^ size` with an overflow check against `max_states`,
and on success stores the triple `(size, alphabet, N)`. -/
def CompositeStateIndex.new (size : Nat) (alphabet : List Sym) :
    Except Err CompositeStateIndex :=
  if size = 0 ∨ alphabet = [] ∨ ¬ alphabet.Nodup ∨
      ¬ (∀ s ∈ alphabet, s.isFinite = true) then
    .error .InvalidArgument
  else if max_states < alphabet.length ^ size then
    .error .OverflowError
  else
    .ok ⟨size, alphabet, alphabet.length ^ size⟩

/-- The mixed-radix digits of `k` in base `base`, `n` digits,
most-significant digit first. -/
def toDigitsMSB (base : Nat) : Nat → Nat → List Nat
  | 0, _ => []
  | n + 1, k => toDigitsMSB base n (k / base) ++ [k % base]

/-- Fold a most-significant-first digit list back into a number. -/
def fromDigitsMSB (base : Nat) (ds : List Nat) : Nat :=
  ds.foldl (fun acc d => acc * base + d) 0

/-- Position of a symbol in an alphabet (first occurrence; alphabet lookup). -/
def alphaIndex : List Sym → Sym → Nat
  | [], _ => 0
  | a :: l, x => if x = a then 0 else alphaIndex l x + 1

/-- Modelled from the spec: `number_to_state(k)` checks `0 <= k < N`
(failing with `IndexOutOfRange` otherwise), computes the mixed-radix
representation of `k` in base `local_size` with `size` digits,
most-significant digit first, and maps each digit `d` to `alphabet[d]`. -/
def CompositeStateIndex.number_to_state (idx : CompositeStateIndex) (k : Int) :
    Except Err (List Sym) :=
  if k < 0 ∨ (idx.nStates : Int) ≤ k then
    .error .IndexOutOfRange
  else
    .ok ((toDigitsMSB idx.alphabet.length idx.size k.toNat).map
      (fun d => idx.alphabet.getD d .nan))

/-- Modelled from the spec: `state_to_number(state)` checks the length and
alphabet membership of the state (failing with `InvalidState` otherwise),
maps each site value back to its digit index via alphabet lookup, and folds
the digits in the same mixed-radix base and order as `number_to_state`. -/
def CompositeStateIndex.state_to_number (idx : CompositeStateIndex)
    (s : List Sym) : Except Err Int :=
  if s.length = idx.size ∧ ∀ x ∈ s, x ∈ idx.alphabet then
    .ok ((fromDigitsMSB idx.alphabet.length (s.map (alphaIndex idx.alphabet)) : Nat) : Int)
  else
    .error .InvalidState

/-- Modelled from the spec: an externally supplied, seedable pseudo-random
source (the test's `nk.utils.RandomEngine(seed=1234)`), modelled as a 64-bit
linear congruential generator threaded explicitly. -/
structure RandomEngine where
  state : Nat
deriving DecidableEq

/-- Seed the generator. -/
def RandomEngine.seeded (seed : Nat) : RandomEngine :=
  ⟨seed % 2 ^ 64⟩

/-- Draw the next raw 64-bit value and advance the generator. -/
def RandomEngine.next (g : RandomEngine) : Nat × RandomEngine :=
  let s := (6364136223846793005 * g.state + 1442695040888963407) % 2 ^ 64
  (s, ⟨s⟩)

/-- Draw `n` symbols from `alphabet`, one per site, threading the generator. -/
def drawSites (alphabet : List Sym) : Nat → RandomEngine → List Sym × RandomEngine
  | 0, g => ([], g)
  | n + 1, g =>
      let p := RandomEngine.next g
      let rest := drawSites alphabet n p.2
      (alphabet.getD (p.1 % alphabet.length) .nan :: rest.1, rest.2)

/-- Modelled from the spec: `random_state(rng)` draws, for each site
independently, a symbol uniformly from `alphabet` using the supplied
pseudo-random source; the source's position advances, nothing else changes. -/
def CompositeStateIndex.random_state (idx : CompositeStateIndex)
    (g : RandomEngine) : List Sym × RandomEngine :=
  drawSites idx.alphabet idx.size g

/-- The sequence of composite states produced by `n` successive calls of
`random_state`, starting from generator `g`. -/
def runSequence (idx : CompositeStateIndex) : Nat → RandomEngine → List (List Sym)
  | 0, _ => []
  | n + 1, g =>
      let p := idx.random_state g
      p.1 :: runSequence idx n p.2

/-- The full mutable state visible to the component's callers: the stored
index triple and the supplied random source. -/
structure World where
  idx : CompositeStateIndex
  rng : RandomEngine

/-- `number_to_state` as a state transformer on the world. -/
def numberToStateOp (w : World) (k : Int) : World × Except Err (List Sym) :=
  (w, w.idx.number_to_state k)

/-- `state_to_number` as a state transformer on the world. -/
def stateToNumberOp (w : World) (s : List Sym) : World × Except Err Int :=
  (w, w.idx.state_to_number s)

/-- `random_state` as a state transformer on the world: only the random
source's position changes. -/
def randomStateOp (w : World) : World × List Sym :=
  let p := w.idx.random_state w.rng
  (⟨w.idx, p.2⟩, p.1)

/-- The character of a binary digit, `'1'` for 1 and `'0'` otherwise. -/
def binDigitChar (d : Nat) : Char :=
  if d = 1 then '1' else '0'

/-- Auxiliary for `bits`, structurally recursive on a fuel argument so that it
reduces inside the kernel; fuel `n` always suffices since halving reaches a
value below 2 in at most `n` steps. -/
def bitsAux : Nat → Nat → List Char
  | 0, n => [binDigitChar n]
  | fuel + 1, n =>
      if n < 2 then [binDigitChar n]
      else bitsAux fuel (n / 2) ++ [binDigitChar (n % 2)]

/-- Minimal binary representation of a natural number, most significant digit
first (Python's `format(i, 'b')`). -/
def bits (n : Nat) : List Char :=
  bitsAux n n

/-- Python's `format(i, '010b')`: the binary representation of `i`,
zero-padded on the left to at least ten characters. -/
def format010b (i : Nat) : List Char :=
  List.replicate (10 - (bits i).length) '0' ++ bits i

/-- One line written by `generate_data.py` for loop value `i`: characters
`d[0]`..`d[8]` of `d = format(i, '010b')`, each followed by a space, then
`d[-1]` and a newline. -/
def makeLine (i : Nat) : List Char :=
  let d := format010b i
  ((List.range 9).foldl (fun acc j => acc ++ [d.getD j '0', ' ']) []) ++
    [d.getLastD '0', '\n']

/-- The sequence of strings written to `ising1d_train_samples.txt` by
`generate_data.py`: one `makeLine i` per loop value `i = 0..1023`. -/
def writtenLines : List (List Char) :=
  (List.range 1024).map makeLine

/-- The line the claim describes for index `k`: the ten binary digits of `k`,
most significant first, separated by single spaces (no trailing space),
terminated by a newline. -/
def specLine (k : Nat) : List Char :=
  (List.intersperse ' ' ((toDigitsMSB 2 10 k).map binDigitChar)) ++ ['\n']

theorem toDigitsMSB_length (base n k : Nat) : (toDigitsMSB base n k).length = n := by
  induction n generalizing k with
  | zero => rfl
  | succ n ih => simp [toDigitsMSB, ih]

theorem toDigitsMSB_lt (base : Nat) (hb : 0 < base) :
    ∀ n k, k < base ^ n → ∀ d ∈ toDigitsMSB base n k, d < base := by
  intro n
  induction n with
  | zero => intro k hk d hd; simp [toDigitsMSB] at hd
  | succ n ih =>
      intro k hk d hd
      simp only [toDigitsMSB, List.mem_append, List.mem_singleton] at hd
      rcases hd with hd | hd
      · refine ih (k / base) ?_ d hd
        rw [Nat.div_lt_iff_lt_mul hb]
        rw [pow_succ] at hk
        exact hk
      · subst hd
        exact Nat.mod_lt _ hb

theorem foldl_toDigitsMSB (base : Nat) (hb : 0 < base) :
    ∀ n k acc, k < base ^ n →
      (toDigitsMSB base n k).foldl (fun a d => a * base + d) acc =
        acc * base ^ n + k := by
  intro n
  induction n with
  | zero =>
      intro k acc hk
      have hk0 : k = 0 := by simpa using hk
      subst hk0
      simp [toDigitsMSB]
  | succ n ih =>
      intro k acc hk
      have hdiv : k / base < base ^ n := by
        rw [Nat.div_lt_iff_lt_mul hb]
        rw [pow_succ] at hk
        exact hk
      rw [toDigitsMSB, List.foldl_append, ih (k / base) acc hdiv]
      simp only [List.foldl_cons, List.foldl_nil]
      have h1 : base * (k / base) + k % base = k := Nat.div_add_mod k base
      rw [pow_succ]
      calc (acc * base ^ n + k / base) * base + k % base
          = acc * (base ^ n * base) + (base * (k / base) + k % base) := by ring
        _ = acc * (base ^ n * base) + k := by rw [h1]

theorem fromDigitsMSB_toDigitsMSB (base : Nat) (hb : 0 < base) (n k : Nat)
    (hk : k < base ^ n) :
    fromDigitsMSB base (toDigitsMSB base n k) = k := by
  unfold fromDigitsMSB
  rw [foldl_toDigitsMSB base hb n k 0 hk]
  simp

theorem foldl_digits_lt (base : Nat) :
    ∀ (ds : List Nat) (acc m : Nat), acc < m → (∀ d ∈ ds, d < base) →
      ds.foldl (fun a d => a * base + d) acc < m * base ^ ds.length := by
  intro ds
  induction ds with
  | nil => intro acc m h _; simpa using h
  | cons d ds ih =>
      intro acc m hacc hds
      have hd : d < base := hds d (List.mem_cons_self d ds)
      have hstep : acc * base + d < m * base := by
        calc acc * base + d < acc * base + base := by omega
          _ = (acc + 1) * base := by ring
          _ ≤ m * base := Nat.mul_le_mul_right base (by omega)
      have hrest := ih (acc * base + d) (m * base) hstep
        (fun x hx => hds x (List.mem_cons_of_mem d hx))
      rw [List.foldl_cons]
      have hlen : m * base ^ (d :: ds).length = (m * base) * base ^ ds.length := by
        rw [List.length_cons, pow_succ]
        ring
      rw [hlen]
      exact hrest

theorem fromDigitsMSB_lt (base : Nat) (ds : List Nat)
    (hds : ∀ d ∈ ds, d < base) :
    fromDigitsMSB base ds < base ^ ds.length := by
  have h := foldl_digits_lt base ds 0 1 (by omega) hds
  simpa [fromDigitsMSB] using h

theorem toDigitsMSB_fromDigitsMSB (base : Nat) (hb : 0 < base) :
    ∀ ds : List Nat, (∀ d ∈ ds, d < base) →
      toDigitsMSB base ds.length (fromDigitsMSB base ds) = ds := by
  intro ds
  induction ds using List.reverseRecOn with
  | nil => intro _; rfl
  | append_singleton ds d ih =>
      intro h
      have hd : d < base := h d (by simp)
      have hds : ∀ x ∈ ds, x < base := fun x hx => h x (by simp [hx])
      have hfold : fromDigitsMSB base (ds ++ [d]) =
          fromDigitsMSB base ds * base + d := by
        simp [fromDigitsMSB, List.foldl_append]
      have hlen : (ds ++ [d]).length = ds.length + 1 := by simp
      rw [hlen, hfold, toDigitsMSB]
      have hdiv : (fromDigitsMSB base ds * base + d) / base = fromDigitsMSB base ds := by
        rw [Nat.mul_comm (fromDigitsMSB base ds) base, Nat.mul_add_div hb]
        simp [Nat.div_eq_of_lt hd]
      have hmod : (fromDigitsMSB base ds * base + d) % base = d := by
        rw [Nat.mul_comm (fromDigitsMSB base ds) base, Nat.mul_add_mod]
        exact Nat.mod_eq_of_lt hd
      rw [hdiv, hmod, ih hds]

theorem alphaIndex_lt_length (l : List Sym) (x : Sym) (hx : x ∈ l) :
    alphaIndex l x < l.length := by
  induction l with
  | nil => simp at hx
  | cons a l ih =>
      by_cases h : x = a
      · simp [alphaIndex, h]
      · have hxl : x ∈ l := by
          rcases List.mem_cons.mp hx with h1 | h1
          · exact absurd h1 h
          · exact h1
        simp only [alphaIndex, if_neg h, List.length_cons]
        exact Nat.succ_lt_succ (ih hxl)

theorem getD_alphaIndex (l : List Sym) (x : Sym) (hx : x ∈ l) (dflt : Sym) :
    l.getD (alphaIndex l x) dflt = x := by
  induction l with
  | nil => simp at hx
  | cons a l ih =>
      by_cases h : x = a
      · simp [alphaIndex, h]
      · have hxl : x ∈ l := by
          rcases List.mem_cons.mp hx with h1 | h1
          · exact absurd h1 h
          · exact h1
        simp only [alphaIndex, if_neg h]
        exact ih hxl

theorem alphaIndex_getD (l : List Sym) (hl : l.Nodup) :
    ∀ (d : Nat) (dflt : Sym), d < l.length → alphaIndex l (l.getD d dflt) = d := by
  induction l with
  | nil => intro d dflt hd; simp at hd
  | cons a l ih =>
      intro d dflt hd
      rcases List.nodup_cons.mp hl with ⟨hal, hln⟩
      cases d with
      | zero => simp [alphaIndex]
      | succ d =>
          have hdl : d < l.length := by simpa using hd
          have hmem : l.getD d dflt ∈ l := by
            rw [List.getD_eq_getElem l dflt hdl]
            exact List.getElem_mem hdl
          have hne : l.getD d dflt ≠ a := fun hcontra => hal (hcontra ▸ hmem)
          simp only [List.getD_cons_succ, alphaIndex, if_neg hne]
          rw [ih hln d dflt hdl]

theorem new_ok_spec {size : Nat} {alphabet : List Sym} {idx : CompositeStateIndex}
    (h : CompositeStateIndex.new size alphabet = .ok idx) :
    idx.size = size ∧ idx.alphabet = alphabet ∧
      idx.nStates = alphabet.length ^ size ∧ 0 < size ∧ alphabet ≠ [] ∧
      alphabet.Nodup ∧ (∀ s ∈ alphabet, s.isFinite = true) ∧
      alphabet.length ^ size ≤ max_states := by
  unfold CompositeStateIndex.new at h
  split at h
  · simp at h
  · next hpre =>
      split at h
      · simp at h
      · next hov =>
          push_neg at hpre
          obtain ⟨h1, h2, h3, h4⟩ := hpre
          have hidx : idx = ⟨size, alphabet, alphabet.length ^ size⟩ := by
            cases h
            rfl
          subst hidx
          exact ⟨rfl, rfl, rfl, by omega, h2, h3, h4, Nat.le_of_not_lt hov⟩

instance {ε α : Type} [DecidableEq ε] [DecidableEq α] :
    DecidableEq (Except ε α) := fun x y =>
  match x, y with
  | .ok a, .ok b =>
      if h : a = b then .isTrue (by rw [h])
      else .isFalse (fun hc => h (Except.ok.inj hc))
  | .error e, .error f =>
      if h : e = f then .isTrue (by rw [h])
      else .isFalse (fun hc => h (Except.error.inj hc))
  | .ok _, .error _ => .isFalse (fun hc => Except.noConfusion hc)
  | .error _, .ok _ => .isFalse (fun hc => Except.noConfusion hc)

/-- The "Custom Hilbert Small" fixture of the test file: local states
`[-1232, 132, 0]` on a hypercube of length 5, so `N = 3 ^ 5 = 243`. -/
def smallAlphabet : List Sym := [.finite (-1232), .finite 132, .finite 0]

/-- The index the spec's construction produces for the small custom fixture. -/
def smallIdx : CompositeStateIndex := ⟨5, smallAlphabet, 243⟩

/-- The "Spin 1/2 Small" fixture: local states `[-1, 1]` on ten sites. -/
def spinAlphabet : List Sym := [.finite (-1), .finite 1]

/-- The index the spec's construction produces for the spin-1/2 fixture. -/
def spinIdx : CompositeStateIndex := ⟨10, spinAlphabet, 1024⟩

/-- C1: for every `CompositeStateIndex` constructed from a size and local
alphabet whose total state count `N = local_size ^ size` does not exceed
`max_states`, and for every integer `k` with `0 ≤ k < N`,
`state_to_number (number_to_state k) = k`. -/
theorem C1_state_to_number_number_to_state (size : Nat) (alphabet : List Sym)
    (idx : CompositeStateIndex)
    (hnew : CompositeStateIndex.new size alphabet = .ok idx)
    (k : Int) (hk0 : 0 ≤ k) (hkN : k < (idx.nStates : Int)) :
    (idx.number_to_state k).bind idx.state_to_number = Except.ok k := by
  obtain ⟨hsz, hal, hN, hpos, hne, hnd, hfin, hmax⟩ := new_ok_spec hnew
  have hb : 0 < idx.alphabet.length := by
    rw [hal]
    exact List.length_pos.mpr hne
  have hnd' : idx.alphabet.Nodup := by rw [hal]; exact hnd
  have hN' : idx.nStates = idx.alphabet.length ^ idx.size := by
    rw [hN, hal, hsz]
  have hklt : k.toNat < idx.alphabet.length ^ idx.size := by
    rw [← hN']
    omega
  rw [CompositeStateIndex.number_to_state, if_neg (by omega)]
  simp only [Except.bind]
  have hmemdig := toDigitsMSB_lt idx.alphabet.length hb idx.size k.toNat hklt
  have hlen : ((toDigitsMSB idx.alphabet.length idx.size k.toNat).map
      (fun d => idx.alphabet.getD d .nan)).length = idx.size := by
    rw [List.length_map, toDigitsMSB_length]
  have hmem : ∀ x ∈ (toDigitsMSB idx.alphabet.length idx.size k.toNat).map
      (fun d => idx.alphabet.getD d .nan), x ∈ idx.alphabet := by
    intro x hx
    rcases List.mem_map.mp hx with ⟨d, hd, hdx⟩
    have hdlt : d < idx.alphabet.length := hmemdig d hd
    rw [← hdx, List.getD_eq_getElem idx.alphabet .nan hdlt]
    exact List.getElem_mem hdlt
  rw [CompositeStateIndex.state_to_number, if_pos ⟨hlen, hmem⟩]
  have hmapback : ((toDigitsMSB idx.alphabet.length idx.size k.toNat).map
      (fun d => idx.alphabet.getD d .nan)).map (alphaIndex idx.alphabet) =
      toDigitsMSB idx.alphabet.length idx.size k.toNat := by
    rw [List.map_map]
    have hpt : ∀ d ∈ toDigitsMSB idx.alphabet.length idx.size k.toNat,
        (alphaIndex idx.alphabet ∘ fun d => idx.alphabet.getD d .nan) d = d := by
      intro d hd
      exact alphaIndex_getD idx.alphabet hnd' d .nan (hmemdig d hd)
    simpa using List.map_congr_left hpt
  rw [hmapback,
    fromDigitsMSB_toDigitsMSB idx.alphabet.length hb idx.size k.toNat hklt]
  congr 1
  omega

/-- Witness for C1 at the "Custom Hilbert Small" fixture and `k = 7`. -/
theorem C1_witness :
    (smallIdx.number_to_state 7).bind smallIdx.state_to_number = Except.ok 7 :=
  C1_state_to_number_number_to_state 5 smallAlphabet smallIdx (by decide) 7
    (by decide) (by decide)

/-- C2: for every constructed `CompositeStateIndex` and every valid composite
state `s` (length equal to `size`, every element a member of the alphabet),
`number_to_state (state_to_number s) = s`. -/
theorem C2_number_to_state_state_to_number (size : Nat) (alphabet : List Sym)
    (idx : CompositeStateIndex)
    (hnew : CompositeStateIndex.new size alphabet = .ok idx)
    (s : List Sym) (hlen : s.length = idx.size)
    (hmem : ∀ x ∈ s, x ∈ idx.alphabet) :
    (idx.state_to_number s).bind idx.number_to_state = Except.ok s := by
  obtain ⟨hsz, hal, hN, hpos, hne, hnd, hfin, hmax⟩ := new_ok_spec hnew
  have hb : 0 < idx.alphabet.length := by
    rw [hal]
    exact List.length_pos.mpr hne
  have hN' : idx.nStates = idx.alphabet.length ^ idx.size := by
    rw [hN, hal, hsz]
  have hdigs : ∀ d ∈ s.map (alphaIndex idx.alphabet), d < idx.alphabet.length := by
    intro d hd
    rcases List.mem_map.mp hd with ⟨x, hx, hdx⟩
    rw [← hdx]
    exact alphaIndex_lt_length idx.alphabet x (hmem x hx)
  have hlt : fromDigitsMSB idx.alphabet.length (s.map (alphaIndex idx.alphabet)) <
      idx.alphabet.length ^ idx.size := by
    have h := fromDigitsMSB_lt idx.alphabet.length (s.map (alphaIndex idx.alphabet)) hdigs
    rwa [List.length_map, hlen] at h
  rw [CompositeStateIndex.state_to_number, if_pos ⟨hlen, hmem⟩]
  simp only [Except.bind]
  rw [CompositeStateIndex.number_to_state, if_neg (by omega)]
  have htn : ((fromDigitsMSB idx.alphabet.length
      (s.map (alphaIndex idx.alphabet)) : Nat) : Int).toNat =
      fromDigitsMSB idx.alphabet.length (s.map (alphaIndex idx.alphabet)) := by
    omega
  rw [htn]
  have hback : toDigitsMSB idx.alphabet.length idx.size
      (fromDigitsMSB idx.alphabet.length (s.map (alphaIndex idx.alphabet))) =
      s.map (alphaIndex idx.alphabet) := by
    have h := toDigitsMSB_fromDigitsMSB idx.alphabet.length hb
      (s.map (alphaIndex idx.alphabet)) hdigs
    rwa [List.length_map, hlen] at h
  rw [hback, List.map_map]
  congr 1
  have hpt : ∀ x ∈ s,
      ((fun d => idx.alphabet.getD d Sym.nan) ∘ alphaIndex idx.alphabet) x = x := by
    intro x hx
    exact getD_alphaIndex idx.alphabet x (hmem x hx) Sym.nan
  simpa using List.map_congr_left hpt

/-- Witness for C2 at the "Custom Hilbert Small" fixture and a concrete
valid five-site state. -/
theorem C2_witness :
    (smallIdx.state_to_number
        [.finite 132, .finite 0, .finite 0, .finite (-1232), .finite 132]).bind
      smallIdx.number_to_state =
      Except.ok [.finite 132, .finite 0, .finite 0, .finite (-1232), .finite 132] :=
  C2_number_to_state_state_to_number 5 smallAlphabet smallIdx (by decide)
    [.finite 132, .finite 0, .finite 0, .finite (-1232), .finite 132]
    (by decide) (by decide)

/-- C3: under the construction preconditions, constructing a
`CompositeStateIndex` fails with `OverflowError` exactly when
`N = local_size ^ size` exceeds `max_states`; on success the stored `N` is
exactly `local_size ^ size` (never wrapped), and neither query operation can
ever signal `OverflowError`. -/
theorem C3_overflow_guard (size : Nat) (alphabet : List Sym)
    (h0 : 0 < size) (h1 : alphabet ≠ []) (h2 : alphabet.Nodup)
    (h3 : ∀ s ∈ alphabet, s.isFinite = true) :
    (CompositeStateIndex.new size alphabet = .error .OverflowError ↔
      max_states < alphabet.length ^ size) ∧
    (∀ idx, CompositeStateIndex.new size alphabet = .ok idx →
      idx.nStates = alphabet.length ^ size) ∧
    (∀ (idx : CompositeStateIndex) (k : Int),
      idx.number_to_state k ≠ .error .OverflowError) ∧
    (∀ (idx : CompositeStateIndex) (s : List Sym),
      idx.state_to_number s ≠ .error .OverflowError) := by
  refine ⟨?_, ?_, ?_, ?_⟩
  · unfold CompositeStateIndex.new
    rw [if_neg (by push_neg; exact ⟨by omega, h1, h2, h3⟩)]
    constructor
    · intro h
      by_contra hov
      rw [if_neg hov] at h
      simp at h
    · intro hov
      rw [if_pos hov]
  · intro idx h
    exact (new_ok_spec h).2.2.1
  · intro idx k
    unfold CompositeStateIndex.number_to_state
    split
    · simp
    · simp
  · intro idx s
    unfold CompositeStateIndex.state_to_number
    split
    · simp
    · simp

/-- Witness for C3 at the spec's overflow fixture `size = 64`,
`local_size = 3` (where `3 ^ 64` exceeds `max_states`). -/
theorem C3_witness :
    (CompositeStateIndex.new 64 smallAlphabet = .error .OverflowError ↔
      max_states < smallAlphabet.length ^ 64) ∧
    (∀ idx, CompositeStateIndex.new 64 smallAlphabet = .ok idx →
      idx.nStates = smallAlphabet.length ^ 64) ∧
    (∀ (idx : CompositeStateIndex) (k : Int),
      idx.number_to_state k ≠ .error .OverflowError) ∧
    (∀ (idx : CompositeStateIndex) (s : List Sym),
      idx.state_to_number s ≠ .error .OverflowError) :=
  C3_overflow_guard 64 smallAlphabet (by decide) (by decide) (by decide)
    (by decide)

/-- C4: for every constructed `CompositeStateIndex`, `number_to_state k`
fails with `IndexOutOfRange` if and only if `k < 0` or `k ≥ N`, and for every
`k` in `[0, N)` it returns a composite state without error. -/
theorem C4_number_to_state_range (size : Nat) (alphabet : List Sym)
    (idx : CompositeStateIndex)
    (hnew : CompositeStateIndex.new size alphabet = .ok idx) (k : Int) :
    (idx.number_to_state k = .error .IndexOutOfRange ↔
      k < 0 ∨ (idx.nStates : Int) ≤ k) ∧
    (0 ≤ k → k < (idx.nStates : Int) →
      ∃ s, idx.number_to_state k = .ok s) := by
  constructor
  · unfold CompositeStateIndex.number_to_state
    split
    · next h => simp [h]
    · next h => simp [h]
  · intro hk0 hkN
    unfold CompositeStateIndex.number_to_state
    rw [if_neg (by omega)]
    exact ⟨_, rfl⟩

/-- Witness for C4 at the "Custom Hilbert Small" fixture and `k = 300`. -/
theorem C4_witness :
    (smallIdx.number_to_state 300 = .error .IndexOutOfRange ↔
      (300 : Int) < 0 ∨ (smallIdx.nStates : Int) ≤ 300) ∧
    ((0 : Int) ≤ 300 → (300 : Int) < (smallIdx.nStates : Int) →
      ∃ s, smallIdx.number_to_state 300 = .ok s) :=
  C4_number_to_state_range 5 smallAlphabet smallIdx (by decide) 300

/-- C5: for every constructed `CompositeStateIndex`, `state_to_number s`
fails with `InvalidState` if and only if the state's length differs from
`size` or some element is not in the alphabet; for every valid state it
returns an integer in `[0, N)` without error. -/
theorem C5_state_to_number_range (size : Nat) (alphabet : List Sym)
    (idx : CompositeStateIndex)
    (hnew : CompositeStateIndex.new size alphabet = .ok idx) (s : List Sym) :
    (idx.state_to_number s = .error .InvalidState ↔
      ¬ (s.length = idx.size ∧ ∀ x ∈ s, x ∈ idx.alphabet)) ∧
    (s.length = idx.size → (∀ x ∈ s, x ∈ idx.alphabet) →
      ∃ n : Int, idx.state_to_number s = .ok n ∧ 0 ≤ n ∧
        n < (idx.nStates : Int)) := by
  obtain ⟨hsz, hal, hN, hpos, hne, hnd, hfin, hmax⟩ := new_ok_spec hnew
  have hN' : idx.nStates = idx.alphabet.length ^ idx.size := by
    rw [hN, hal, hsz]
  constructor
  · unfold CompositeStateIndex.state_to_number
    split
    · next h =>
        constructor
        · intro hc
          simp at hc
        · intro hc
          exact absurd h hc
    · next h => simp [h]
  · intro hlen hmem
    have hdigs : ∀ d ∈ s.map (alphaIndex idx.alphabet),
        d < idx.alphabet.length := by
      intro d hd
      rcases List.mem_map.mp hd with ⟨x, hx, hdx⟩
      rw [← hdx]
      exact alphaIndex_lt_length idx.alphabet x (hmem x hx)
    have hlt : fromDigitsMSB idx.alphabet.length
        (s.map (alphaIndex idx.alphabet)) < idx.alphabet.length ^ idx.size := by
      have h := fromDigitsMSB_lt idx.alphabet.length
        (s.map (alphaIndex idx.alphabet)) hdigs
      rwa [List.length_map, hlen] at h
    refine ⟨((fromDigitsMSB idx.alphabet.length
        (s.map (alphaIndex idx.alphabet)) : Nat) : Int), ?_, ?_, ?_⟩
    · rw [CompositeStateIndex.state_to_number, if_pos ⟨hlen, hmem⟩]
    · exact Int.natCast_nonneg _
    · omega

/-- Witness for C5 at the "Custom Hilbert Small" fixture and a concrete
valid state. -/
theorem C5_witness :
    (smallIdx.state_to_number
        [.finite 0, .finite 0, .finite 0, .finite 0, .finite 132] =
          .error .InvalidState ↔
      ¬ ([Sym.finite 0, .finite 0, .finite 0, .finite 0, .finite 132].length =
            smallIdx.size ∧
          ∀ x ∈ [Sym.finite 0, .finite 0, .finite 0, .finite 0, .finite 132],
            x ∈ smallIdx.alphabet)) ∧
    ([Sym.finite 0, .finite 0, .finite 0, .finite 0, .finite 132].length =
        smallIdx.size →
      (∀ x ∈ [Sym.finite 0, .finite 0, .finite 0, .finite 0, .finite 132],
        x ∈ smallIdx.alphabet) →
      ∃ n : Int,
        smallIdx.state_to_number
            [.finite 0, .finite 0, .finite 0, .finite 0, .finite 132] =
          .ok n ∧ 0 ≤ n ∧ n < (smallIdx.nStates : Int)) :=
  C5_state_to_number_range 5 smallAlphabet smallIdx (by decide)
    [.finite 0, .finite 0, .finite 0, .finite 0, .finite 132]

/-- Every symbol drawn by `drawSites` on a non-empty alphabet is a member of
that alphabet. -/
theorem drawSites_mem (alphabet : List Sym) (hne : alphabet ≠ []) :
    ∀ (n : Nat) (g : RandomEngine) (x : Sym),
      x ∈ (drawSites alphabet n g).1 → x ∈ alphabet := by
  intro n
  induction n with
  | zero => intro g x hx; simp [drawSites] at hx
  | succ n ih =>
      intro g x hx
      have hb : 0 < alphabet.length := List.length_pos.mpr hne
      simp only [drawSites, List.mem_cons] at hx
      rcases hx with hx | hx
      · subst hx
        have hlt : (RandomEngine.next g).1 % alphabet.length < alphabet.length :=
          Nat.mod_lt _ hb
        rw [List.getD_eq_getElem alphabet Sym.nan hlt]
        exact List.getElem_mem hlt
      · exact ih _ x hx

/-- C6: every composite state produced by `random_state` on a constructed
index — for any supplied random source and any number of invocations — has
every site value a member of the index's local alphabet. -/
theorem C6_random_state_alphabet_membership (size : Nat) (alphabet : List Sym)
    (idx : CompositeStateIndex)
    (hnew : CompositeStateIndex.new size alphabet = .ok idx)
    (n : Nat) (g : RandomEngine) :
    ∀ s ∈ runSequence idx n g, ∀ x ∈ s, x ∈ idx.alphabet := by
  obtain ⟨hsz, hal, hN, hpos, hne, hnd, hfin, hmax⟩ := new_ok_spec hnew
  have hne' : idx.alphabet ≠ [] := by rw [hal]; exact hne
  induction n generalizing g with
  | zero => intro s hs; simp [runSequence] at hs
  | succ n ih =>
      intro s hs x hx
      simp only [runSequence, List.mem_cons] at hs
      rcases hs with hs | hs
      · subst hs
        exact drawSites_mem idx.alphabet hne' idx.size g x hx
      · exact ih _ s hs x hx

/-- Witness for C6 at the spin-1/2 fixture: the first site value of the first
state generated from seed 1234 is a member of the alphabet. -/
theorem C6_witness : Sym.finite 1 ∈ spinIdx.alphabet :=
  C6_random_state_alphabet_membership 10 spinAlphabet spinIdx (by decide) 1
    (RandomEngine.seeded 1234)
    [.finite 1, .finite (-1), .finite 1, .finite (-1), .finite 1, .finite (-1),
      .finite 1, .finite (-1), .finite 1, .finite (-1)]
    (by decide) (Sym.finite 1) (by decide)

/-- C7: `random_state` is deterministic in the supplied generator: two runs
of the same number of calls on the same index, each starting from a generator
seeded with the same seed, produce identical sequences of composite
states. -/
theorem C7_random_state_deterministic (idx : CompositeStateIndex) (n : Nat)
    (seed1 seed2 : Nat) (h : seed1 = seed2) :
    runSequence idx n (RandomEngine.seeded seed1) =
      runSequence idx n (RandomEngine.seeded seed2) := by
  rw [h]

/-- Witness for C7: two 3-call runs on the spin-1/2 fixture from seed 1234
coincide. -/
theorem C7_witness :
    runSequence spinIdx 3 (RandomEngine.seeded 1234) =
      runSequence spinIdx 3 (RandomEngine.seeded 1234) :=
  C7_random_state_deterministic spinIdx 3 1234 1234 rfl

/-- C8: every Hilbert-space description accepted by the component satisfies,
after construction: `size > 0`, `local_size > 0`, the local-state sequence
has exactly `local_size` elements, and every local state is finite (no NaN
or infinity). -/
theorem C8_accepted_invariants (size : Nat) (alphabet : List Sym)
    (idx : CompositeStateIndex)
    (hnew : CompositeStateIndex.new size alphabet = .ok idx) :
    0 < idx.size ∧ 0 < idx.local_size ∧
      idx.local_states.length = idx.local_size ∧
      ∀ s ∈ idx.local_states, s.isFinite = true := by
  obtain ⟨hsz, hal, hN, hpos, hne, hnd, hfin, hmax⟩ := new_ok_spec hnew
  refine ⟨by omega, ?_, rfl, ?_⟩
  · rw [CompositeStateIndex.local_size, hal]
    exact List.length_pos.mpr hne
  · intro s hs
    rw [CompositeStateIndex.local_states, hal] at hs
    exact hfin s hs

/-- Witness for C8 at the "Spin 1/2 Small" fixture. -/
theorem C8_witness :
    0 < spinIdx.size ∧ 0 < spinIdx.local_size ∧
      spinIdx.local_states.length = spinIdx.local_size ∧
      ∀ s ∈ spinIdx.local_states, s.isFinite = true :=
  C8_accepted_invariants 10 spinAlphabet spinIdx (by decide)

/-- C9: every query operation leaves the stored `(size, alphabet, N)` triple
unchanged: `number_to_state` and `state_to_number` leave the whole world
untouched, and `random_state` changes nothing but the random source's
position. -/
theorem C9_queries_preserve_index (w : World) (k : Int) (s : List Sym) :
    (numberToStateOp w k).1 = w ∧ (stateToNumberOp w s).1 = w ∧
      (randomStateOp w).1.idx = w.idx :=
  ⟨rfl, rfl, rfl⟩

theorem binDigitChar_ne_newline (d : Nat) : binDigitChar d ≠ '\n' := by
  unfold binDigitChar
  split
  · decide
  · decide

theorem bitsAux_congr :
    ∀ f1 n, n < 2 ^ (f1 + 1) → ∀ f2, n < 2 ^ (f2 + 1) →
      bitsAux f1 n = bitsAux f2 n := by
  intro f1
  induction f1 with
  | zero =>
      intro n hn f2 _
      have hn2 : n < 2 := by simpa using hn
      cases f2 with
      | zero => rfl
      | succ f2 => simp [bitsAux, hn2]
  | succ f1 ih =>
      intro n hn f2 hn2
      by_cases h2 : n < 2
      · cases f2 with
        | zero => simp [bitsAux, h2]
        | succ f2 => simp [bitsAux, h2]
      · cases f2 with
        | zero =>
            exfalso
            have : n < 2 := by simpa using hn2
            exact h2 this
        | succ f2 =>
            have hd1 : n / 2 < 2 ^ (f1 + 1) := by
              rw [Nat.div_lt_iff_lt_mul (by omega)]
              rw [pow_succ] at hn
              omega
            have hd2 : n / 2 < 2 ^ (f2 + 1) := by
              rw [Nat.div_lt_iff_lt_mul (by omega)]
              rw [pow_succ] at hn2
              omega
            simp only [bitsAux, if_neg h2]
            rw [ih (n / 2) hd1 f2 hd2]

theorem bits_eq_bitsAux (f n : Nat) (h : n < 2 ^ (f + 1)) :
    bits n = bitsAux f n := by
  have hn : n < 2 ^ (n + 1) :=
    lt_of_lt_of_le (Nat.lt_two_pow n)
      (Nat.pow_le_pow_right (by omega) (by omega))
  exact bitsAux_congr n n hn f h

theorem bits_of_lt_two (n : Nat) (h : n < 2) : bits n = [binDigitChar n] := by
  interval_cases n
  · rfl
  · rfl

theorem bits_of_ge_two (n : Nat) (h : 2 ≤ n) :
    bits n = bits (n / 2) ++ [binDigitChar (n % 2)] := by
  obtain ⟨m, rfl⟩ : ∃ m, n = m + 1 := ⟨n - 1, by omega⟩
  show bitsAux (m + 1) (m + 1) = _
  simp only [bitsAux]
  rw [if_neg (by omega)]
  congr 1
  have hdm : (m + 1) / 2 ≤ m := by omega
  have hdiv : (m + 1) / 2 < 2 ^ (m + 1) :=
    lt_of_le_of_lt hdm
      (lt_of_lt_of_le (Nat.lt_two_pow m)
        (Nat.pow_le_pow_right (by omega) (by omega)))
  exact (bits_eq_bitsAux m ((m + 1) / 2) hdiv).symm

theorem toDigitsMSB_zero (base w : Nat) :
    toDigitsMSB base w 0 = List.replicate w 0 := by
  induction w with
  | zero => rfl
  | succ w ih =>
      show toDigitsMSB base w (0 / base) ++ [0 % base] = _
      rw [Nat.zero_div, Nat.zero_mod, ih, List.replicate_succ']

theorem format_pad_eq_toDigits :
    ∀ w n, 0 < w → n < 2 ^ w →
      List.replicate (w - (bits n).length) '0' ++ bits n =
        (toDigitsMSB 2 w n).map binDigitChar := by
  intro w
  induction w with
  | zero => intro n h0 _; omega
  | succ w ih =>
      intro n _ hn
      by_cases h2 : n < 2
      · have hd : n / 2 = 0 := by omega
        have hm : n % 2 = n := by omega
        rw [bits_of_lt_two n h2]
        show List.replicate (w + 1 - 1) '0' ++ [binDigitChar n] = _
        rw [Nat.add_sub_cancel]
        show _ = (toDigitsMSB 2 w (n / 2) ++ [n % 2]).map binDigitChar
        rw [hd, hm, toDigitsMSB_zero, List.map_append, List.map_replicate]
        rfl
      · have hw : 0 < w := by
          rcases Nat.eq_zero_or_pos w with h | h
          · subst h
            have : n < 2 := by simpa using hn
            omega
          · exact h
        have hdivlt : n / 2 < 2 ^ w := by
          rw [Nat.div_lt_iff_lt_mul (by omega)]
          rw [pow_succ] at hn
          omega
        have hrec := ih (n / 2) hw hdivlt
        have hlenle : (bits (n / 2)).length ≤ w := by
          have hlen : ((toDigitsMSB 2 w (n / 2)).map binDigitChar).length = w := by
            rw [List.length_map, toDigitsMSB_length]
          rw [← hrec, List.length_append] at hlen
          omega
        rw [bits_of_ge_two n (by omega)]
        show List.replicate (w + 1 - (bits (n / 2) ++ [binDigitChar (n % 2)]).length)
            '0' ++ (bits (n / 2) ++ [binDigitChar (n % 2)]) =
          (toDigitsMSB 2 w (n / 2) ++ [n % 2]).map binDigitChar
        rw [List.length_append, List.map_append, ← List.append_assoc]
        have harith : w + 1 - ((bits (n / 2)).length + [binDigitChar (n % 2)].length) =
            w - (bits (n / 2)).length := by
          simp only [List.length_singleton]
          omega
        rw [harith, hrec]
        rfl

theorem exists_ten_of_length (l : List Nat) (h : l.length = 10) :
    ∃ a0 a1 a2 a3 a4 a5 a6 a7 a8 a9,
      l = [a0, a1, a2, a3, a4, a5, a6, a7, a8, a9] := by
  rcases l with _ | ⟨a0, l⟩
  · simp at h
  rcases l with _ | ⟨a1, l⟩
  · simp at h
  rcases l with _ | ⟨a2, l⟩
  · simp at h
  rcases l with _ | ⟨a3, l⟩
  · simp at h
  rcases l with _ | ⟨a4, l⟩
  · simp at h
  rcases l with _ | ⟨a5, l⟩
  · simp at h
  rcases l with _ | ⟨a6, l⟩
  · simp at h
  rcases l with _ | ⟨a7, l⟩
  · simp at h
  rcases l with _ | ⟨a8, l⟩
  · simp at h
  rcases l with _ | ⟨a9, l⟩
  · simp at h
  rcases l with _ | ⟨a10, l⟩
  · exact ⟨a0, a1, a2, a3, a4, a5, a6, a7, a8, a9, rfl⟩
  · simp at h

theorem makeLine_expand (c0 c1 c2 c3 c4 c5 c6 c7 c8 c9 : Char) :
    ((List.range 9).foldl
        (fun acc j =>
          acc ++ [[c0, c1, c2, c3, c4, c5, c6, c7, c8, c9].getD j '0', ' ']) []) ++
      [[c0, c1, c2, c3, c4, c5, c6, c7, c8, c9].getLastD '0', '\n'] =
    [c0, ' ', c1, ' ', c2, ' ', c3, ' ', c4, ' ', c5, ' ', c6, ' ', c7, ' ',
      c8, ' ', c9, '\n'] := rfl

theorem intersperse_expand (c0 c1 c2 c3 c4 c5 c6 c7 c8 c9 : Char) :
    List.intersperse ' ' [c0, c1, c2, c3, c4, c5, c6, c7, c8, c9] ++ ['\n'] =
    [c0, ' ', c1, ' ', c2, ' ', c3, ' ', c4, ' ', c5, ' ', c6, ' ', c7, ' ',
      c8, ' ', c9, '\n'] := rfl

theorem makeLine_eq_specLine (i : Nat) (hi : i < 1024) :
    makeLine i = specLine i := by
  have h1024 : (2 : Nat) ^ 10 = 1024 := by norm_num
  have hfmt : format010b i = (toDigitsMSB 2 10 i).map binDigitChar :=
    format_pad_eq_toDigits 10 i (by omega) (by rw [h1024]; exact hi)
  obtain ⟨d0, d1, d2, d3, d4, d5, d6, d7, d8, d9, hds⟩ :=
    exists_ten_of_length (toDigitsMSB 2 10 i) (toDigitsMSB_length 2 10 i)
  simp only [makeLine, specLine]
  rw [hfmt, hds]
  simp only [List.map_cons, List.map_nil]
  exact (makeLine_expand (binDigitChar d0) (binDigitChar d1) (binDigitChar d2)
      (binDigitChar d3) (binDigitChar d4) (binDigitChar d5) (binDigitChar d6)
      (binDigitChar d7) (binDigitChar d8) (binDigitChar d9)).trans
    (intersperse_expand (binDigitChar d0) (binDigitChar d1) (binDigitChar d2)
      (binDigitChar d3) (binDigitChar d4) (binDigitChar d5) (binDigitChar d6)
      (binDigitChar d7) (binDigitChar d8) (binDigitChar d9)).symm

theorem mem_intersperse {α : Type} {x sep : α} :
    ∀ l : List α, x ∈ List.intersperse sep l → x = sep ∨ x ∈ l := by
  intro l
  induction l with
  | nil => intro h; simp at h
  | cons a l ih =>
      cases l with
      | nil =>
          intro h
          simp only [List.intersperse_singleton, List.mem_singleton] at h
          right
          simp [h]
      | cons b t =>
          intro h
          rw [List.intersperse_cons_cons] at h
          rcases List.mem_cons.mp h with h1 | h1
          · right
            simp [h1]
          rcases List.mem_cons.mp h1 with h2 | h2
          · left
            exact h2
          · rcases ih h2 with h3 | h3
            · left
              exact h3
            · right
              simp [h3]

theorem count_newline_specLine (k : Nat) : List.count '\n' (specLine k) = 1 := by
  rw [specLine, List.count_append]
  have h0 : List.count '\n'
      (List.intersperse ' ' ((toDigitsMSB 2 10 k).map binDigitChar)) = 0 := by
    rw [List.count_eq_zero]
    intro hmem
    rcases mem_intersperse _ hmem with h | h
    · exact absurd h (by decide)
    · rcases List.mem_map.mp h with ⟨d, _, hd⟩
      exact binDigitChar_ne_newline d hd
  rw [h0]
  rfl

/-- C10: the training-data generator writes exactly 1024 strings, and the
string written for loop value `k` is exactly the ten binary digits of `k`,
most significant first, separated by single spaces with no trailing space,
followed by one newline (so each write is exactly one line, every 10-bit
string appears exactly once, in increasing numeric order). -/
theorem C10_generate_data_lines :
    writtenLines = (List.range 1024).map specLine ∧
    writtenLines.map (fun l => List.count '\n' l) = List.replicate 1024 1 := by
  constructor
  · rw [writtenLines]
    apply List.map_congr_left
    intro k hk
    exact makeLine_eq_specLine k (List.mem_range.mp hk)
  · rw [writtenLines, List.map_map]
    have h : ∀ k ∈ List.range 1024,
        ((fun l => List.count '\n' l) ∘ makeLine) k = (fun _ => 1) k := by
      intro k hk
      simp only [Function.comp_apply]
      rw [makeLine_eq_specLine k (List.mem_range.mp hk)]
      exact count_newline_specLine k
    rw [List.map_congr_left h]
    simp

end NetketSpec
